import Mathlib

/-!
Verification development for the file-organizer program
(`file_organizar.py`).

The pure helpers `categorize_file` and `get_unique_name` are embedded
directly.  Python's `str.lower` / `str.upper` are modelled by the ASCII
case maps `pyLower` / `pyUpper`, `os.path.splitext` by `splitext`, and
directory contents (for the existence probes of `get_unique_name`) by a
finite list of entry names.  The background worker
(`OrganizerWorker.run`) is embedded as a trace-producing interpreter
`workerRun` over an environment that fixes the outcome of every
filesystem call the worker performs (listing, per-file `isfile`,
`makedirs`, destination-directory contents, `shutil.move`) together
with the values the cancellation flag is observed to have; the trace
records both the queue events and the attempted filesystem mutations.
-/

/-- Pairs of corresponding (uppercase, lowercase) ASCII letters. -/
def caseTable : List (Char × Char) :=
  [('A', 'a'), ('B', 'b'), ('C', 'c'), ('D', 'd'), ('E', 'e'), ('F', 'f'),
   ('G', 'g'), ('H', 'h'), ('I', 'i'), ('J', 'j'), ('K', 'k'), ('L', 'l'),
   ('M', 'm'), ('N', 'n'), ('O', 'o'), ('P', 'p'), ('Q', 'q'), ('R', 'r'),
   ('S', 's'), ('T', 't'), ('U', 'u'), ('V', 'v'), ('W', 'w'), ('X', 'x'),
   ('Y', 'y'), ('Z', 'z')]

/-- ASCII lower-casing of one character, modelling Python's `str.lower`
on the alphabet relevant to the extension table. -/
def pyLowerChar (c : Char) : Char :=
  ((caseTable.find? (fun p => p.1 == c)).map Prod.snd).getD c

/-- Model of Python's `str.lower` (character-wise ASCII case map). -/
def pyLower (s : String) : String := ⟨s.data.map pyLowerChar⟩

/-- The extension table `FILE_TYPES` of the program, as an ordered
association list (Python dictionaries preserve insertion order). -/
def FILE_TYPES : List (String × List String) :=
  [("Images", [".jpg", ".jpeg", ".png", ".gif", ".bmp", ".svg", ".webp"]),
   ("Documents", [".pdf", ".docx", ".doc", ".txt", ".pptx", ".ppt", ".xlsx",
                  ".xls", ".odt", ".rtf"]),
   ("Videos", [".mp4", ".mov", ".avi", ".mkv", ".wmv"]),
   ("Music", [".mp3", ".wav", ".aac", ".flac", ".ogg"]),
   ("Archives", [".zip", ".rar", ".7z", ".tar", ".gz"])]

/-- The reserved fallback category name. -/
def OTHER_FOLDER_NAME : String := "Others"

/-- Embedding of `categorize_file`: lower-case the filename, scan the
table in declared order, and return the first category one of whose
extensions is a suffix of the lowered name (`str.endswith` on a tuple
tests each member as a plain suffix). -/
def categorize_file (filename : String) : Option String :=
  (FILE_TYPES.find? (fun p =>
    p.2.any (fun e => e.data.isSuffixOf (pyLower filename).data))).map Prod.fst

/-- Case-insensitive literal-suffix test, following the wording of the
specification: the candidate extension string is compared, case
insensitively, as a plain suffix of the filename. -/
def ciSuffix (e f : String) : Bool :=
  (pyLower e).data.isSuffixOf (pyLower f).data

/-- Classifier written from the specification's words: the first
category, in the table's declared order, whose extension set contains a
literal case-insensitive suffix of the filename; `none` otherwise. -/
def specCategorize (filename : String) : Option String :=
  (FILE_TYPES.find? (fun p => p.2.any (fun e => ciSuffix e filename))).map Prod.fst

theorem find?_congr_on {α : Type} (l : List α) (p q : α → Bool)
    (h : ∀ a ∈ l, p a = q a) : l.find? p = l.find? q := by
  induction l with
  | nil => rfl
  | cons a l ih =>
    have ha := h a (List.mem_cons_self a l)
    simp only [List.find?]
    rw [← ha]
    cases hpa : p a with
    | true => rfl
    | false => exact ih (fun b hb => h b (List.mem_cons_of_mem a hb))

theorem any_congr_on {α : Type} (l : List α) (p q : α → Bool)
    (h : ∀ a ∈ l, p a = q a) : l.any p = l.any q := by
  induction l with
  | nil => rfl
  | cons a l ih =>
    simp only [List.any]
    rw [h a (List.mem_cons_self a l),
      ih (fun b hb => h b (List.mem_cons_of_mem a hb))]

theorem table_exts_lower_fixed :
    ∀ p ∈ FILE_TYPES, ∀ e ∈ p.2, pyLower e = e := by decide

/-- C5: for every filename, `categorize_file` returns the name of the
first category, in the table's declared order, whose extension set
contains a literal case-insensitive suffix of the filename, and `none`
when no category's extensions match (the spec-side classifier
`specCategorize` is exactly that description). -/
theorem categorize_C5 (f : String) : categorize_file f = specCategorize f := by
  unfold categorize_file specCategorize
  apply congrArg (Option.map Prod.fst)
  apply find?_congr_on
  intro p hp
  apply any_congr_on
  intro e he
  unfold ciSuffix
  rw [table_exts_lower_fixed p hp e he]

/-- C10: `categorize_file` never returns the reserved Other-category
name: its result is `none` or one of the five configured category
names, and the worker's fallback `getD OTHER_FOLDER_NAME` produces the
Other-category exactly when the classifier returned `none`. -/
theorem categorize_C10 (f : String) :
    (categorize_file f = none ∨
      ∃ c, categorize_file f = some c ∧ c ∈ FILE_TYPES.map Prod.fst) ∧
    categorize_file f ≠ some OTHER_FOLDER_NAME ∧
    ((categorize_file f).getD OTHER_FOLDER_NAME = OTHER_FOLDER_NAME ↔
      categorize_file f = none) := by
  cases h : FILE_TYPES.find?
      (fun p => p.2.any (fun e => e.data.isSuffixOf (pyLower f).data)) with
  | none =>
    have hc : categorize_file f = none := by simp [categorize_file, h]
    refine ⟨Or.inl hc, ?_, ?_⟩ <;> simp [hc]
  | some p =>
    have hp : p ∈ FILE_TYPES := List.mem_of_find?_eq_some h
    have hc : categorize_file f = some p.1 := by simp [categorize_file, h]
    have hmem : p.1 ∈ FILE_TYPES.map Prod.fst := List.mem_map_of_mem Prod.fst hp
    have hne : p.1 ≠ OTHER_FOLDER_NAME := by
      have hall : ∀ q ∈ FILE_TYPES, q.1 ≠ OTHER_FOLDER_NAME := by decide
      exact hall p hp
    refine ⟨Or.inr ⟨p.1, hc, hmem⟩, ?_, ?_⟩
    · simp [hc, hne]
    · simp [hc, hne]

/-- Closed instance of C10 at a concrete filename. -/
theorem categorize_C10_witness :
    (categorize_file "a.zip" = none ∨
      ∃ c, categorize_file "a.zip" = some c ∧ c ∈ FILE_TYPES.map Prod.fst) ∧
    categorize_file "a.zip" ≠ some OTHER_FOLDER_NAME ∧
    ((categorize_file "a.zip").getD OTHER_FOLDER_NAME = OTHER_FOLDER_NAME ↔
      categorize_file "a.zip" = none) :=
  categorize_C10 "a.zip"

/-- Index of the last occurrence of a character in a list, if any. -/
def lastIdxOf (c : Char) : List Char → Option Nat
  | [] => none
  | x :: xs =>
    match lastIdxOf c xs with
    | some i => some (i + 1)
    | none => if x = c then some 0 else none

/-- Embedding of `os.path.splitext`: split at the last dot, except that
a dot is not an extension separator when every character between the
start of the basename (after the last slash) and that dot is itself a
dot — so dotfiles such as `.bashrc` keep the whole name as the stem. -/
def splitext (p : String) : String × String :=
  match lastIdxOf '.' p.data with
  | none => (p, "")
  | some d =>
    let s := match lastIdxOf '/' p.data with
      | none => 0
      | some i => i + 1
    if ((p.data.take d).drop s).any (fun ch => ch != '.') then
      (⟨p.data.take d⟩, ⟨p.data.drop d⟩)
    else (p, "")

/-- Splitter written from the claim's words: stem and extension obtained
by splitting the filename at its last dot (unconditionally). -/
def specSplitLastDot (p : String) : String × String :=
  match lastIdxOf '.' p.data with
  | none => (p, "")
  | some d => (⟨p.data.take d⟩, ⟨p.data.drop d⟩)

/-- The candidate filename built by the probing loop of
`get_unique_name`: the f-string `"{base} ({counter}){ext}"`. -/
def mkCandidate (base ext : String) (counter : Nat) : String :=
  base ++ " (" ++ toString counter ++ ")" ++ ext

/-- The `while os.path.exists(...)` probing loop of `get_unique_name`,
with explicit fuel (the fuel used below is proved sufficient: the loop
always exits by finding an unoccupied candidate). -/
def uniqueLoop (existing : List String) (base ext : String) :
    Nat → String → Nat → String
  | 0, candidate, _ => candidate
  | fuel + 1, candidate, counter =>
    if candidate ∈ existing then
      uniqueLoop existing base ext fuel (mkCandidate base ext counter) (counter + 1)
    else candidate

/-- Embedding of `get_unique_name`: the destination directory is
modelled by the finite list of entry names `existing`, and
`os.path.exists` by membership in that list. -/
def get_unique_name (existing : List String) (filename : String) : String :=
  uniqueLoop existing (splitext filename).1 (splitext filename).2
    (existing.length + 1) filename 1

/-- Decimal digit list of a natural number (reference definition used
to reason about `Nat.repr`). -/
def myDigits (n : Nat) : List Char :=
  if n < 10 then [Nat.digitChar n]
  else myDigits (n / 10) ++ [Nat.digitChar (n % 10)]
decreasing_by exact Nat.div_lt_self (by omega) (by omega)

theorem toDigitsCore_eq_myDigits :
    ∀ fuel n ds, n < fuel →
      Nat.toDigitsCore 10 fuel n ds = myDigits n ++ ds := by
  intro fuel
  induction fuel with
  | zero => intro n ds h; omega
  | succ f ih =>
    intro n ds h
    by_cases h10 : n / 10 = 0
    · have hn : n < 10 := (Nat.div_eq_zero_iff (by norm_num)).mp h10
      rw [myDigits]
      simp [Nat.toDigitsCore, h10, hn, Nat.mod_eq_of_lt hn]
    · have hn : ¬ n < 10 := fun hlt =>
        h10 ((Nat.div_eq_zero_iff (by norm_num)).mpr hlt)
      have hpos : 0 < n := by omega
      have hrec : n / 10 < f := by
        have hlt := Nat.div_lt_self hpos (by norm_num : (1 : Nat) < 10)
        omega
      rw [show Nat.toDigitsCore 10 (f + 1) n ds =
          Nat.toDigitsCore 10 f (n / 10) (Nat.digitChar (n % 10) :: ds) by
        simp [Nat.toDigitsCore, h10]]
      rw [ih (n / 10) _ hrec]
      conv_rhs => rw [myDigits]
      simp [hn, List.append_assoc]

theorem myDigits_ne_nil (n : Nat) : myDigits n ≠ [] := by
  rw [myDigits]
  split <;> simp

theorem myDigits_length_pos (n : Nat) : 1 ≤ (myDigits n).length := by
  cases h : myDigits n with
  | nil => exact absurd h (myDigits_ne_nil n)
  | cons a l => simp

theorem digitChar_inj_fin :
    ∀ a b : Fin 10, Nat.digitChar a.val = Nat.digitChar b.val → a = b := by
  decide

theorem digitChar_inj {a b : Nat} (ha : a < 10) (hb : b < 10)
    (h : Nat.digitChar a = Nat.digitChar b) : a = b := by
  have := digitChar_inj_fin ⟨a, ha⟩ ⟨b, hb⟩ h
  simpa using congrArg Fin.val this

theorem myDigits_small {n : Nat} (h : n < 10) :
    myDigits n = [Nat.digitChar n] := by
  rw [myDigits]
  simp [h]

theorem myDigits_large {n : Nat} (h : ¬ n < 10) :
    myDigits n = myDigits (n / 10) ++ [Nat.digitChar (n % 10)] := by
  conv_lhs => rw [myDigits]
  simp [h]

theorem myDigits_inj : ∀ m n : Nat, myDigits m = myDigits n → m = n := by
  intro m
  induction m using Nat.strong_induction_on with
  | _ m ih =>
    intro n h
    by_cases hm : m < 10 <;> by_cases hn : n < 10
    · rw [myDigits_small hm, myDigits_small hn] at h
      simp at h
      exact digitChar_inj hm hn h
    · rw [myDigits_small hm, myDigits_large hn] at h
      have hlen := congrArg List.length h
      have hpos := myDigits_length_pos (n / 10)
      simp only [List.length_append, List.length_cons, List.length_nil] at hlen
      omega
    · rw [myDigits_large hm, myDigits_small hn] at h
      have hlen := congrArg List.length h
      have hpos := myDigits_length_pos (m / 10)
      simp only [List.length_append, List.length_cons, List.length_nil] at hlen
      omega
    · rw [myDigits_large hm, myDigits_large hn] at h
      obtain ⟨h1, h2⟩ := List.append_inj' h (by simp)
      have hd : m / 10 = n / 10 :=
        ih (m / 10) (Nat.div_lt_self (by omega) (by norm_num)) _ h1
      have hmod : m % 10 = n % 10 :=
        digitChar_inj (Nat.mod_lt _ (by norm_num)) (Nat.mod_lt _ (by norm_num))
          (by simpa using h2)
      have e1 := Nat.div_add_mod m 10
      have e2 := Nat.div_add_mod n 10
      omega

theorem repr_eq_myDigits (n : Nat) : (Nat.repr n).data = myDigits n := by
  show (Nat.toDigits 10 n).asString.data = myDigits n
  rw [Nat.toDigits, toDigitsCore_eq_myDigits (n + 1) n [] (Nat.lt_succ_self n)]
  simp [List.asString]

theorem natRepr_inj {m n : Nat} (h : Nat.repr m = Nat.repr n) : m = n :=
  myDigits_inj m n (by rw [← repr_eq_myDigits, ← repr_eq_myDigits, h])

theorem natRepr_length_pos (n : Nat) : 1 ≤ (Nat.repr n).data.length := by
  rw [repr_eq_myDigits]
  exact myDigits_length_pos n

theorem strData_append (s t : String) : (s ++ t).data = s.data ++ t.data := by
  cases s
  cases t
  rfl

theorem toString_nat_eq (n : Nat) : (toString n : String) = Nat.repr n := rfl

theorem mkCandidate_inj (base ext : String) {i j : Nat}
    (h : mkCandidate base ext i = mkCandidate base ext j) : i = j := by
  unfold mkCandidate at h
  have hd := congrArg String.data h
  simp only [strData_append] at hd
  have h1 := List.append_cancel_right hd
  have h2 := List.append_cancel_right h1
  have h3 := List.append_cancel_left h2
  have h4 : (toString i : String) = toString j := String.ext h3
  rw [toString_nat_eq, toString_nat_eq] at h4
  exact natRepr_inj h4

theorem mkCandidate_length (base ext : String) (i : Nat) :
    base.data.length + ext.data.length < (mkCandidate base ext i).data.length := by
  unfold mkCandidate
  simp only [strData_append, List.length_append]
  have hp := natRepr_length_pos i
  have l1 : (" (" : String).data.length = 2 := rfl
  have l2 : (")" : String).data.length = 1 := rfl
  rw [toString_nat_eq]
  omega

/-- The sequence of names probed by `uniqueLoop` from a given state:
the current candidate first, then the numbered candidates. -/
def probeR (base ext candidate : String) (counter : Nat) : Nat → String
  | 0 => candidate
  | k + 1 => mkCandidate base ext (counter + k)

theorem probeR_shift (base ext candidate : String) (counter k : Nat) :
    probeR base ext (mkCandidate base ext counter) (counter + 1) k =
      probeR base ext candidate counter (k + 1) := by
  cases k with
  | zero => rfl
  | succ k =>
    show mkCandidate base ext (counter + 1 + k) =
      mkCandidate base ext (counter + (k + 1))
    rw [show counter + 1 + k = counter + (k + 1) by omega]

theorem uniqueLoop_first (existing : List String) (base ext : String) :
    ∀ fuel candidate counter k, k < fuel →
      probeR base ext candidate counter k ∉ existing →
      (∀ j, j < k → probeR base ext candidate counter j ∈ existing) →
      uniqueLoop existing base ext fuel candidate counter =
        probeR base ext candidate counter k := by
  intro fuel
  induction fuel with
  | zero => intro candidate counter k hk _ _; omega
  | succ f ih =>
    intro candidate counter k hk hfresh hmin
    by_cases hc : candidate ∈ existing
    · cases k with
      | zero => exact absurd hc hfresh
      | succ k =>
        rw [show uniqueLoop existing base ext (f + 1) candidate counter =
            uniqueLoop existing base ext f (mkCandidate base ext counter)
              (counter + 1) by simp [uniqueLoop, hc]]
        rw [← probeR_shift base ext candidate counter k]
        apply ih
        · omega
        · rw [probeR_shift]; exact hfresh
        · intro j hj
          rw [probeR_shift]
          exact hmin (j + 1) (by omega)
    · have hk0 : k = 0 := by
        cases k with
        | zero => rfl
        | succ k => exact absurd (hmin 0 (Nat.succ_pos k)) hc
      subst hk0
      simp [uniqueLoop, hc, probeR]

theorem splitext_append (p : String) : (splitext p).1 ++ (splitext p).2 = p := by
  unfold splitext
  cases h : lastIdxOf '.' p.data with
  | none =>
    show p ++ "" = p
    apply String.ext
    simp [strData_append]
  | some d =>
    dsimp only
    split
    · apply String.ext
      simp [strData_append]
    · show p ++ "" = p
      apply String.ext
      simp [strData_append]

theorem probeR_injective (filename : String) :
    Function.Injective
      (probeR (splitext filename).1 (splitext filename).2 filename 1) := by
  have hsp : (splitext filename).1 ++ (splitext filename).2 = filename :=
    splitext_append filename
  have hlen : filename.data.length =
      (splitext filename).1.data.length + (splitext filename).2.data.length := by
    conv_lhs => rw [← hsp]
    simp [strData_append]
  intro a b h
  match a, b with
  | 0, 0 => rfl
  | 0, k + 1 =>
    exfalso
    have hm := mkCandidate_length (splitext filename).1 (splitext filename).2 (1 + k)
    have := congrArg (fun s => s.data.length) h
    simp only [probeR] at this
    omega
  | k + 1, 0 =>
    exfalso
    have hm := mkCandidate_length (splitext filename).1 (splitext filename).2 (1 + k)
    have := congrArg (fun s => s.data.length) h
    simp only [probeR] at this
    omega
  | i + 1, j + 1 =>
    have := mkCandidate_inj (splitext filename).1 (splitext filename).2
      (h : mkCandidate _ _ (1 + i) = mkCandidate _ _ (1 + j))
    omega

theorem exists_probe_fresh (existing : List String) (filename : String) :
    ∃ k, k ≤ existing.length ∧
      probeR (splitext filename).1 (splitext filename).2 filename 1 k ∉
        existing := by
  by_contra hcon
  push_neg at hcon
  have hnd : ((List.range (existing.length + 1)).map
      (probeR (splitext filename).1 (splitext filename).2 filename 1)).Nodup :=
    (List.nodup_range (existing.length + 1)).map (probeR_injective filename)
  have hsub : ((List.range (existing.length + 1)).map
      (probeR (splitext filename).1 (splitext filename).2 filename 1)).toFinset ⊆
      existing.toFinset := by
    intro x hx
    simp only [List.mem_toFinset, List.mem_map, List.mem_range] at hx ⊢
    obtain ⟨k, hk, rfl⟩ := hx
    exact hcon k (by omega)
  have hcard := Finset.card_le_card hsub
  rw [List.toFinset_card_of_nodup hnd] at hcard
  have h2 := List.toFinset_card_le existing
  simp only [List.length_map, List.length_range] at hcard
  omega

theorem get_unique_name_eq (existing : List String) (filename : String) :
    ∃ K, K ≤ existing.length ∧
      get_unique_name existing filename =
        probeR (splitext filename).1 (splitext filename).2 filename 1 K ∧
      probeR (splitext filename).1 (splitext filename).2 filename 1 K ∉
        existing ∧
      (∀ j, j < K →
        probeR (splitext filename).1 (splitext filename).2 filename 1 j ∈
          existing) ∧
      (∀ fuel, existing.length < fuel →
        uniqueLoop existing (splitext filename).1 (splitext filename).2 fuel
          filename 1 = get_unique_name existing filename) := by
  obtain ⟨k0, hk0, hfresh0⟩ := exists_probe_fresh existing filename
  have hex : ∃ k,
      probeR (splitext filename).1 (splitext filename).2 filename 1 k ∉
        existing := ⟨k0, hfresh0⟩
  have hKfresh := Nat.find_spec hex
  have hKmin : ∀ j, j < Nat.find hex →
      probeR (splitext filename).1 (splitext filename).2 filename 1 j ∈
        existing := fun j hj => not_not.mp (Nat.find_min hex hj)
  have hKle : Nat.find hex ≤ existing.length :=
    le_trans (Nat.find_min' hex hfresh0) hk0
  have hmain : get_unique_name existing filename =
      probeR (splitext filename).1 (splitext filename).2 filename 1
        (Nat.find hex) :=
    uniqueLoop_first existing _ _ (existing.length + 1) filename 1
      (Nat.find hex) (by omega) hKfresh hKmin
  refine ⟨Nat.find hex, hKle, hmain, hKfresh, hKmin, ?_⟩
  intro fuel hf
  rw [uniqueLoop_first existing _ _ fuel filename 1 (Nat.find hex) (by omega)
    hKfresh hKmin]
  exact hmain.symm

/-- C6 (amended): `get_unique_name` returns the filename unchanged when
it does not occur in the destination directory; otherwise it returns
the first unoccupied candidate `stem (N)ext` for N = 1, 2, ..., where
stem and ext come from `os.path.splitext` (which splits at the last dot
of the basename unless every character before that dot is itself a dot,
as in dotfiles such as `.bashrc`, in which case the whole name is the
stem and the extension is empty); in all cases the returned name does
not occur in the directory at call time. -/
theorem unique_C6_amended (existing : List String) (filename : String) :
    (filename ∉ existing → get_unique_name existing filename = filename) ∧
    (filename ∈ existing → ∃ N, 1 ≤ N ∧
      get_unique_name existing filename =
        mkCandidate (splitext filename).1 (splitext filename).2 N ∧
      mkCandidate (splitext filename).1 (splitext filename).2 N ∉ existing ∧
      (∀ M, 1 ≤ M → M < N →
        mkCandidate (splitext filename).1 (splitext filename).2 M ∈
          existing)) ∧
    get_unique_name existing filename ∉ existing := by
  obtain ⟨K, hKle, hmain, hfresh, hmin, _⟩ := get_unique_name_eq existing filename
  refine ⟨?_, ?_, ?_⟩
  · intro hnot
    cases hK : K with
    | zero => rw [hmain, hK]; rfl
    | succ k =>
      exfalso
      exact hnot (hmin 0 (by omega))
  · intro hmem
    cases hK : K with
    | zero =>
      exfalso
      rw [hK] at hfresh
      exact hfresh hmem
    | succ k =>
      refine ⟨k + 1, by omega, ?_, ?_, ?_⟩
      · rw [hmain, hK]
        show mkCandidate _ _ (1 + k) = mkCandidate _ _ (k + 1)
        rw [Nat.add_comm 1 k]
      · rw [hK] at hfresh
        have : probeR (splitext filename).1 (splitext filename).2 filename 1
            (k + 1) = mkCandidate (splitext filename).1 (splitext filename).2
            (k + 1) := by
          show mkCandidate _ _ (1 + k) = mkCandidate _ _ (k + 1)
          rw [Nat.add_comm 1 k]
        rw [← this]
        exact hfresh
      · intro M hM1 hMK
        have hprobe : probeR (splitext filename).1 (splitext filename).2
            filename 1 M = mkCandidate (splitext filename).1
            (splitext filename).2 M := by
          cases M with
          | zero => omega
          | succ m =>
            show mkCandidate _ _ (1 + m) = mkCandidate _ _ (m + 1)
            rw [Nat.add_comm 1 m]
        rw [← hprobe]
        exact hmin M (by omega)
  · rw [hmain]
    exact hfresh

/-- Closed instance of the amended C6: moving `a.txt` into a directory
that already holds `a.txt` picks `a (1).txt`. -/
theorem unique_C6_witness :
    (("a.txt" : String) ∈ (["a.txt"] : List String)) ∧
    (∃ N, 1 ≤ N ∧
      get_unique_name ["a.txt"] "a.txt" =
        mkCandidate (splitext "a.txt").1 (splitext "a.txt").2 N ∧
      mkCandidate (splitext "a.txt").1 (splitext "a.txt").2 N ∉
        (["a.txt"] : List String) ∧
      (∀ M, 1 ≤ M → M < N →
        mkCandidate (splitext "a.txt").1 (splitext "a.txt").2 M ∈
          (["a.txt"] : List String))) :=
  ⟨by decide, (unique_C6_amended ["a.txt"] "a.txt").2.1 (by decide)⟩

/-- C6 counterexample: the claim derives stem and ext by splitting at
the last dot, but for the dotfile `.bashrc` (already present in the
destination) the code returns `.bashrc (1)` while the first unoccupied
last-dot-split candidate is ` (1).bashrc`. -/
theorem unique_C6_counterexample :
    (".bashrc" : String) ∈ ([".bashrc"] : List String) ∧
    mkCandidate (specSplitLastDot ".bashrc").1 (specSplitLastDot ".bashrc").2
      1 ∉ ([".bashrc"] : List String) ∧
    get_unique_name [".bashrc"] ".bashrc" ≠
      mkCandidate (specSplitLastDot ".bashrc").1
        (specSplitLastDot ".bashrc").2 1 ∧
    get_unique_name [".bashrc"] ".bashrc" = ".bashrc (1)" ∧
    mkCandidate (specSplitLastDot ".bashrc").1 (specSplitLastDot ".bashrc").2
      1 = " (1).bashrc" := by
  decide

/-- C8: the probing loop of `get_unique_name` terminates within
`existing.length + 1` probes: giving the loop any amount of extra fuel
does not change the result, and the loop has genuinely exited by the
unoccupied-candidate test, since the returned name is not occupied. -/
theorem unique_C8 (existing : List String) (filename : String) (extra : Nat) :
    uniqueLoop existing (splitext filename).1 (splitext filename).2
        (existing.length + 1 + extra) filename 1 =
      get_unique_name existing filename ∧
    get_unique_name existing filename ∉ existing := by
  obtain ⟨K, hKle, hmain, hfresh, hmin, hstable⟩ :=
    get_unique_name_eq existing filename
  refine ⟨hstable _ (by omega), ?_⟩
  rw [hmain]
  exact hfresh

/-- Closed instance of C8 at a concrete directory and filename. -/
theorem unique_C8_witness :
    uniqueLoop ["b.txt", "a.txt"] (splitext "a.txt").1 (splitext "a.txt").2
        (["b.txt", "a.txt"].length + 1 + 5) "a.txt" 1 =
      get_unique_name ["b.txt", "a.txt"] "a.txt" ∧
    get_unique_name ["b.txt", "a.txt"] "a.txt" ∉
      (["b.txt", "a.txt"] : List String) :=
  unique_C8 ["b.txt", "a.txt"] "a.txt" 5

/-- The events the worker puts on its outgoing queue. -/
inductive MoveEvent where
  | error (msg : String)
  | start (total : Nat)
  | log (msg : String)
  | progress (idx : Nat)
  | done (moved : Nat)
deriving DecidableEq, Repr

/-- The filesystem mutations the worker attempts. -/
inductive FsAction where
  | makedirs (path : String)
  | move (src dst : String)
deriving DecidableEq, Repr

/-- One element of the worker's trace: a queue event or a filesystem
mutation. -/
inductive TraceItem where
  | ev (e : MoveEvent)
  | act (a : FsAction)
deriving DecidableEq, Repr

/-- Outcomes of the filesystem calls made while processing one file:
the result of `os.path.isfile` (which may raise), whether the per-file
`os.makedirs` raises, the contents of the destination directory probed
by `get_unique_name`, whether `shutil.move` raises, and the timestamp
string produced by `time.strftime`. -/
structure FileEnv where
  isfile : Except String Bool
  mkdirExc : Option String
  destList : List String
  moveExc : Option String
  timestamp : String

/-- Environment of one worker run: the outcome of the guarded directory
listing, whether (and at which call) the unguarded preparing
`os.makedirs` loop raises, the per-file filesystem outcomes indexed by
the 1-based file index, and the value the cancellation flag is observed
to have at the top of each loop iteration. -/
structure Env where
  listing : Except String (List String)
  prepExc : Option Nat
  perFile : Nat → FileEnv
  stopped : Nat → Bool

/-- Model of `os.path.join` for the path strings recorded in the trace. -/
def pathJoin (a b : String) : String := a ++ "/" ++ b

/-- The fatal message `f"Failed to list source folder: {e}"`. -/
def listErrMsg (e : String) : String := s!"Failed to list source folder: {e}"

/-- The cancellation log line. -/
def cancelMsg : String := "[SYS] Operation cancelled by user."

/-- The skip log line `f"[SYS] Skipping (not a file): {f}"`. -/
def skipMsg (f : String) : String := s!"[SYS] Skipping (not a file): {f}"

/-- The per-file failure log line `f"[SYS] ERROR moving {f}: {e}"`. -/
def errMsg (f e : String) : String := s!"[SYS] ERROR moving {f}: {e}"

/-- The success log line
`f"[SYS] [{ts}] Moved: {f} → {cat}/{un}"`. -/
def movedMsg (ts f cat un : String) : String :=
  s!"[SYS] [{ts}] Moved: {f} → {cat}/{un}"

/-- The body of the per-file `try/except` of `OrganizerWorker.run`
(lines 98-115): check `isfile`, classify (defaulting to the
Other-category), create the destination category directory, resolve a
unique name, move, and log; any exception is caught and logged.
Returns the emitted trace items and the increment of `moved_count`. -/
def processFile (s d : String) (fe : FileEnv) (filename : String) :
    List TraceItem × Nat :=
  match fe.isfile with
  | Except.error e => ([TraceItem.ev (MoveEvent.log (errMsg filename e))], 0)
  | Except.ok false => ([TraceItem.ev (MoveEvent.log (skipMsg filename))], 0)
  | Except.ok true =>
    let category := (categorize_file filename).getD OTHER_FOLDER_NAME
    let destFolder := pathJoin d category
    match fe.mkdirExc with
    | some e => ([TraceItem.ev (MoveEvent.log (errMsg filename e))], 0)
    | none =>
      let uniqueName := get_unique_name fe.destList filename
      match fe.moveExc with
      | some e =>
        ([TraceItem.act (FsAction.makedirs destFolder),
          TraceItem.ev (MoveEvent.log (errMsg filename e))], 0)
      | none =>
        ([TraceItem.act (FsAction.makedirs destFolder),
          TraceItem.act (FsAction.move (pathJoin s filename)
            (pathJoin destFolder uniqueName)),
          TraceItem.ev (MoveEvent.log (movedMsg fe.timestamp filename category
            uniqueName))], 1)

/-- The `for idx, filename in enumerate(files, start=1)` loop of
`OrganizerWorker.run` (lines 93-117): check the cancellation flag, run
the per-file body, emit `progress(idx)` after each attempt; `moved` is
the accumulated `moved_count`.  Returns the loop's trace and the final
`moved_count`. -/
def runFiles (s d : String) (env : Env) :
    List String → Nat → Nat → List TraceItem × Nat
  | [], _, moved => ([], moved)
  | f :: fs, idx, moved =>
    if env.stopped idx then ([TraceItem.ev (MoveEvent.log cancelMsg)], moved)
    else
      let pr := processFile s d (env.perFile idx) f
      let rest := runFiles s d env fs (idx + 1) (moved + pr.2)
      (pr.1 ++ [TraceItem.ev (MoveEvent.progress idx)] ++ rest.1, rest.2)

/-- The destination directories created by the preparing loop (lines
89-91): one per category, then the Other-category directory. -/
def prepPaths (d : String) : List String :=
  (FILE_TYPES.map (fun p => pathJoin d p.1)) ++ [pathJoin d OTHER_FOLDER_NAME]

/-- The trace items of the preparing loop when it completes. -/
def prepTraceItems (d : String) : List TraceItem :=
  (prepPaths d).map (fun p => TraceItem.act (FsAction.makedirs p))

/-- Embedding of `OrganizerWorker.run`: on listing failure emit the
fatal error and return; otherwise emit `start(total)`, run the
preparing `os.makedirs` loop — which is not inside any `try`, so if its
`k`-th call raises, the worker dies after the first `k` creations and
emits nothing further — then run the per-file loop and emit
`done(moved_count)`. -/
def workerRun (s d : String) (env : Env) : List TraceItem :=
  match env.listing with
  | Except.error e => [TraceItem.ev (MoveEvent.error (listErrMsg e))]
  | Except.ok files =>
    match env.prepExc with
    | some k =>
      TraceItem.ev (MoveEvent.start files.length) ::
        ((prepPaths d).take k).map (fun p => TraceItem.act (FsAction.makedirs p))
    | none =>
      let pr := runFiles s d env files 1 0
      TraceItem.ev (MoveEvent.start files.length) ::
        prepTraceItems d ++ pr.1 ++ [TraceItem.ev (MoveEvent.done pr.2)]

/-- The queue events of a trace, in order. -/
def eventsOf (tr : List TraceItem) : List MoveEvent :=
  tr.filterMap (fun it =>
    match it with
    | TraceItem.ev e => some e
    | TraceItem.act _ => none)

/-- The filesystem mutations of a trace, in order. -/
def actionsOf (tr : List TraceItem) : List FsAction :=
  tr.filterMap (fun it =>
    match it with
    | TraceItem.ev _ => none
    | TraceItem.act a => some a)

/-- The indices carried by the `progress` events of a trace, in order. -/
def progressOf (tr : List TraceItem) : List Nat :=
  tr.filterMap (fun it =>
    match it with
    | TraceItem.ev (MoveEvent.progress i) => some i
    | _ => none)

/-- Whether an event is a log line or a progress tick. -/
def MoveEvent.isLogOrProgress : MoveEvent → Bool
  | MoveEvent.log _ => true
  | MoveEvent.progress _ => true
  | _ => false

/-- Whether the per-file body reaches the `shutil.move` and succeeds
(the only case that increments `moved_count`). -/
def moveHappens (fe : FileEnv) : Bool :=
  match fe.isfile, fe.mkdirExc, fe.moveExc with
  | Except.ok true, none, none => true
  | _, _, _ => false

/-- The exception message, if any, raised inside the per-file body (in
the order the body performs its calls). -/
def failureOf (fe : FileEnv) : Option String :=
  match fe.isfile with
  | Except.error e => some e
  | Except.ok false => none
  | Except.ok true =>
    match fe.mkdirExc with
    | some e => some e
    | none => fe.moveExc

/-- The trace of one uncancelled loop iteration. -/
def iterTraceItems (s d : String) (env : Env) (f : String) (idx : Nat) : List TraceItem :=
  (processFile s d (env.perFile idx) f).1 ++ [TraceItem.ev (MoveEvent.progress idx)]

/-- The loop trace over a file list when no iteration is cancelled. -/
def flatJoin (s d : String) (env : Env) : List String → Nat → List TraceItem
  | [], _ => []
  | f :: fs, idx => iterTraceItems s d env f idx ++ flatJoin s d env fs (idx + 1)

/-- The number of successful moves over a file list. -/
def movedSum (env : Env) : List String → Nat → Nat
  | [], _ => 0
  | _ :: fs, idx =>
    (if moveHappens (env.perFile idx) then 1 else 0) + movedSum env fs (idx + 1)

/-- The number of loop iterations that run before the cancellation flag
is first observed set (all of them if it never is). -/
def iterCount (env : Env) : List String → Nat → Nat
  | [], _ => 0
  | _ :: fs, idx =>
    if env.stopped idx then 0 else iterCount env fs (idx + 1) + 1

theorem eventsOf_append (a b : List TraceItem) :
    eventsOf (a ++ b) = eventsOf a ++ eventsOf b :=
  List.filterMap_append a b _

theorem actionsOf_append (a b : List TraceItem) :
    actionsOf (a ++ b) = actionsOf a ++ actionsOf b :=
  List.filterMap_append a b _

theorem progressOf_append (a b : List TraceItem) :
    progressOf (a ++ b) = progressOf a ++ progressOf b :=
  List.filterMap_append a b _

theorem processFile_delta (s d : String) (fe : FileEnv) (f : String) :
    (processFile s d fe f).2 = if moveHappens fe then 1 else 0 := by
  rcases fe with ⟨isf, mke, dl, mve, ts⟩
  rcases isf with er | b
  · rfl
  · cases b
    · rfl
    · cases mke
      · cases mve <;> rfl
      · rfl

theorem processFile_progress (s d : String) (fe : FileEnv) (f : String) :
    progressOf (processFile s d fe f).1 = [] := by
  rcases fe with ⟨isf, mke, dl, mve, ts⟩
  rcases isf with er | b
  · rfl
  · cases b
    · rfl
    · cases mke
      · cases mve <;> rfl
      · rfl

theorem processFile_events (s d : String) (fe : FileEnv) (f : String) :
    ∀ e ∈ eventsOf (processFile s d fe f).1, e.isLogOrProgress = true := by
  rcases fe with ⟨isf, mke, dl, mve, ts⟩
  rcases isf with er | b
  · intro e he
    simp [processFile, eventsOf] at he
    subst he
    rfl
  · cases b
    · intro e he
      simp [processFile, eventsOf] at he
      subst he
      rfl
    · cases mke
      · cases mve
        · intro e he
          simp [processFile, eventsOf] at he
          subst he
          rfl
        · intro e he
          simp [processFile, eventsOf] at he
          subst he
          rfl
      · intro e he
        simp [processFile, eventsOf] at he
        subst he
        rfl

theorem processFile_errlog (s d : String) (fe : FileEnv) (f e : String)
    (h : failureOf fe = some e) :
    TraceItem.ev (MoveEvent.log (errMsg f e)) ∈ (processFile s d fe f).1 := by
  rcases fe with ⟨isf, mke, dl, mve, ts⟩
  rcases isf with er | b
  · simp [failureOf] at h
    subst h
    simp [processFile]
  · cases b
    · simp [failureOf] at h
    · cases mke with
      | none =>
        cases mve with
        | none => simp [failureOf] at h
        | some e2 =>
          simp [failureOf] at h
          subst h
          simp [processFile]
      | some e2 =>
        simp [failureOf] at h
        subst h
        simp [processFile]

theorem failureOf_not_moved (fe : FileEnv) (e : String)
    (h : failureOf fe = some e) : moveHappens fe = false := by
  rcases fe with ⟨isf, mke, dl, mve, ts⟩
  rcases isf with er | b
  · rfl
  · cases b
    · rfl
    · cases mke with
      | none =>
        cases mve with
        | none => simp [failureOf] at h
        | some e2 => rfl
      | some e2 => rfl

theorem runFiles_eq (s d : String) (env : Env) :
    ∀ (files : List String) (idx moved : Nat),
      runFiles s d env files idx moved =
        (flatJoin s d env (files.take (iterCount env files idx)) idx ++
          (if iterCount env files idx < files.length then
            [TraceItem.ev (MoveEvent.log cancelMsg)] else []),
         moved + movedSum env (files.take (iterCount env files idx)) idx) := by
  intro files
  induction files with
  | nil => intro idx moved; simp [runFiles, iterCount, flatJoin, movedSum]
  | cons f fs ih =>
    intro idx moved
    by_cases hs : env.stopped idx
    · simp [runFiles, iterCount, hs, flatJoin, movedSum]
    · have hn : iterCount env (f :: fs) idx = iterCount env fs (idx + 1) + 1 := by
        simp [iterCount, hs]
      rw [show runFiles s d env (f :: fs) idx moved =
          ((processFile s d (env.perFile idx) f).1 ++
            [TraceItem.ev (MoveEvent.progress idx)] ++
            (runFiles s d env fs (idx + 1)
              (moved + (processFile s d (env.perFile idx) f).2)).1,
           (runFiles s d env fs (idx + 1)
              (moved + (processFile s d (env.perFile idx) f).2)).2) by
        simp [runFiles, hs]]
      rw [ih (idx + 1) (moved + (processFile s d (env.perFile idx) f).2), hn]
      simp only [List.take_succ_cons, Prod.mk.injEq]
      constructor
      · simp [flatJoin, iterTraceItems, List.append_assoc,
          Nat.succ_lt_succ_iff, List.length_cons]
      · rw [processFile_delta]
        simp only [movedSum]
        omega

theorem iterCount_le (env : Env) :
    ∀ files idx, iterCount env files idx ≤ files.length := by
  intro files
  induction files with
  | nil => intro idx; simp [iterCount]
  | cons f fs ih =>
    intro idx
    by_cases hs : env.stopped idx <;> simp [iterCount, hs]
    exact ih (idx + 1)

theorem iterCount_all (env : Env) :
    ∀ files idx, (∀ j, j < files.length → env.stopped (idx + j) = false) →
      iterCount env files idx = files.length := by
  intro files
  induction files with
  | nil => intro idx _; rfl
  | cons f fs ih =>
    intro idx h
    have h0 : env.stopped idx = false := by simpa using h 0 (by simp)
    simp [iterCount, h0]
    exact ih (idx + 1) (fun j hj => by
      have hj1 := h (j + 1) (by simpa using Nat.succ_lt_succ hj)
      rwa [show idx + (j + 1) = idx + 1 + j by omega] at hj1)

theorem iterCount_stop (env : Env) :
    ∀ files idx j, j < files.length → env.stopped (idx + j) = true →
      (∀ i, i < j → env.stopped (idx + i) = false) →
      iterCount env files idx = j := by
  intro files
  induction files with
  | nil => intro idx j hj _ _; simp at hj
  | cons f fs ih =>
    intro idx j hj hstop hbefore
    cases j with
    | zero =>
      have h0 : env.stopped idx = true := by simpa using hstop
      simp [iterCount, h0]
    | succ j =>
      have h0 : env.stopped idx = false := by
        simpa using hbefore 0 (by omega)
      simp only [iterCount, h0, Bool.false_eq_true, if_false]
      have : iterCount env fs (idx + 1) = j := by
        apply ih (idx + 1) j (by simpa using Nat.lt_of_succ_lt_succ hj)
        · rwa [show idx + 1 + j = idx + (j + 1) by omega]
        · intro i hi
          have hb := hbefore (i + 1) (by omega)
          rwa [show idx + (i + 1) = idx + 1 + i by omega] at hb
      omega

theorem flatJoin_progress (s d : String) (env : Env) :
    ∀ files idx,
      progressOf (flatJoin s d env files idx) = List.range' idx files.length := by
  intro files
  induction files with
  | nil => intro idx; simp [flatJoin, progressOf]
  | cons f fs ih =>
    intro idx
    rw [show (f :: fs).length = fs.length + 1 by rfl, List.range'_succ]
    simp only [flatJoin, progressOf_append, iterTraceItems, ih]
    rw [processFile_progress]
    simp [progressOf]

theorem flatJoin_events (s d : String) (env : Env) :
    ∀ files idx, ∀ e ∈ eventsOf (flatJoin s d env files idx),
      e.isLogOrProgress = true := by
  intro files
  induction files with
  | nil => intro idx e he; simp [flatJoin, eventsOf] at he
  | cons f fs ih =>
    intro idx e he
    simp only [flatJoin, iterTraceItems, List.append_assoc, eventsOf_append,
      List.mem_append] at he
    rcases he with he | he | he
    · exact processFile_events s d (env.perFile idx) f e he
    · simp [eventsOf] at he
      subst he
      rfl
    · exact ih (idx + 1) e he

theorem movedSum_le (env : Env) :
    ∀ files idx, movedSum env files idx ≤ files.length := by
  intro files
  induction files with
  | nil => intro idx; simp [movedSum]
  | cons f fs ih =>
    intro idx
    have := ih (idx + 1)
    simp only [movedSum, List.length_cons]
    split <;> omega

theorem mem_flatJoin (s d : String) (env : Env) :
    ∀ (files : List String) (idx j : Nat) (hj : j < files.length)
      (x : TraceItem),
      x ∈ iterTraceItems s d env (files.get ⟨j, hj⟩) (idx + j) →
      x ∈ flatJoin s d env files idx := by
  intro files
  induction files with
  | nil => intro idx j hj; simp at hj
  | cons f fs ih =>
    intro idx j hj x hx
    cases j with
    | zero =>
      rw [Nat.add_zero] at hx
      simp only [List.get] at hx
      simp only [flatJoin]
      exact List.mem_append_left _ hx
    | succ j =>
      have hx' : x ∈ iterTraceItems s d env (fs.get ⟨j, by
          simpa using Nat.lt_of_succ_lt_succ hj⟩) (idx + 1 + j) := by
        rw [show idx + 1 + j = idx + (j + 1) by omega]
        simpa using hx
      simp only [flatJoin]
      exact List.mem_append_right _ (ih (idx + 1) j _ x hx')

@[simp]
theorem eventsOf_nil : eventsOf [] = [] := rfl

@[simp]
theorem eventsOf_cons_ev (e : MoveEvent) (L : List TraceItem) :
    eventsOf (TraceItem.ev e :: L) = e :: eventsOf L := rfl

@[simp]
theorem eventsOf_cons_act (a : FsAction) (L : List TraceItem) :
    eventsOf (TraceItem.act a :: L) = eventsOf L := rfl

@[simp]
theorem actionsOf_nil : actionsOf [] = [] := rfl

@[simp]
theorem actionsOf_cons_ev (e : MoveEvent) (L : List TraceItem) :
    actionsOf (TraceItem.ev e :: L) = actionsOf L := rfl

@[simp]
theorem actionsOf_cons_act (a : FsAction) (L : List TraceItem) :
    actionsOf (TraceItem.act a :: L) = a :: actionsOf L := rfl

@[simp]
theorem progressOf_nil : progressOf [] = [] := rfl

@[simp]
theorem progressOf_cons_act (a : FsAction) (L : List TraceItem) :
    progressOf (TraceItem.act a :: L) = progressOf L := rfl

@[simp]
theorem progressOf_cons_start (t : Nat) (L : List TraceItem) :
    progressOf (TraceItem.ev (MoveEvent.start t) :: L) = progressOf L := rfl

@[simp]
theorem progressOf_cons_done (m : Nat) (L : List TraceItem) :
    progressOf (TraceItem.ev (MoveEvent.done m) :: L) = progressOf L := rfl

@[simp]
theorem progressOf_cons_log (m : String) (L : List TraceItem) :
    progressOf (TraceItem.ev (MoveEvent.log m) :: L) = progressOf L := rfl

@[simp]
theorem progressOf_cons_err (m : String) (L : List TraceItem) :
    progressOf (TraceItem.ev (MoveEvent.error m) :: L) = progressOf L := rfl

@[simp]
theorem progressOf_cons_progress (i : Nat) (L : List TraceItem) :
    progressOf (TraceItem.ev (MoveEvent.progress i) :: L) =
      i :: progressOf L := rfl

theorem eventsOf_acts (ps : List String) :
    eventsOf (ps.map (fun p => TraceItem.act (FsAction.makedirs p))) = [] := by
  induction ps with
  | nil => rfl
  | cons p ps ih => simpa using ih

theorem progressOf_acts (ps : List String) :
    progressOf (ps.map (fun p => TraceItem.act (FsAction.makedirs p))) = [] := by
  induction ps with
  | nil => rfl
  | cons p ps ih => simpa using ih

theorem eventsOf_prep (d : String) : eventsOf (prepTraceItems d) = [] :=
  eventsOf_acts _

theorem progressOf_prep (d : String) : progressOf (prepTraceItems d) = [] :=
  progressOf_acts _

theorem runFiles_events (s d : String) (env : Env) (files : List String)
    (idx moved : Nat) :
    ∀ e ∈ eventsOf (runFiles s d env files idx moved).1,
      e.isLogOrProgress = true := by
  intro e he
  rw [runFiles_eq] at he
  rw [eventsOf_append] at he
  rcases List.mem_append.mp he with he | he
  · exact flatJoin_events s d env _ idx e he
  · by_cases hc : iterCount env files idx < files.length
    · rw [if_pos hc] at he
      simp at he
      subst he
      rfl
    · rw [if_neg hc] at he
      simp at he

/-- C9: when the directory listing fails, the worker emits the single
fatal error event and performs no filesystem mutation at all: no
directory is created and no file is moved. -/
theorem worker_C9 (s d : String) (env : Env) (e : String)
    (hl : env.listing = Except.error e) :
    actionsOf (workerRun s d env) = [] ∧
    eventsOf (workerRun s d env) = [MoveEvent.error (listErrMsg e)] := by
  constructor <;> simp [workerRun, hl]

/-- All-success outcome for one file (used by concrete environments). -/
def defFileEnv : FileEnv :=
  ⟨Except.ok true, none, [], none, "T"⟩

/-- Concrete environment whose directory listing fails. -/
def envListErr : Env :=
  ⟨Except.error "boom", none, fun _ => defFileEnv, fun _ => false⟩

/-- Closed instance of C9: a failed listing yields one error event and
an empty mutation trace. -/
theorem worker_C9_witness :
    (envListErr.listing = Except.error "boom") ∧
    actionsOf (workerRun "S" "D" envListErr) = [] ∧
    eventsOf (workerRun "S" "D" envListErr) =
      [MoveEvent.error (listErrMsg "boom")] :=
  ⟨rfl, worker_C9 "S" "D" envListErr "boom" rfl⟩

/-- Concrete environment in which the listing succeeds but the very
first preparing `os.makedirs` call raises. -/
def envPrepFail : Env :=
  ⟨Except.ok ["a.txt"], some 0, fun _ => defFileEnv, fun _ => false⟩

/-- C1 counterexample: the claimed event-sequence shape fails on the
code.  The preparing `os.makedirs` loop (lines 89-91) runs outside any
`try`, so when creating the first destination directory raises — for
example because the destination is not writable — the run emits `start`
and then nothing else: no `done` ever follows, although no `error` was
emitted either. -/
theorem worker_C1_counterexample :
    ¬ ((∃ msg, eventsOf (workerRun "S" "D" envPrepFail) =
          [MoveEvent.error msg]) ∨
       (∃ total mid moved,
          eventsOf (workerRun "S" "D" envPrepFail) =
            MoveEvent.start total :: mid ++ [MoveEvent.done moved] ∧
          ∀ e ∈ mid, e.isLogOrProgress = true)) := by
  have hev : eventsOf (workerRun "S" "D" envPrepFail) =
      [MoveEvent.start 1] := rfl
  rw [hev]
  rintro (⟨msg, h⟩ | ⟨total, mid, moved, h, _⟩)
  · injection h with h1 h2
    exact MoveEvent.noConfusion h1
  · injection h with h1 h2
    have := congrArg List.length h2
    simp at this

/-- C1 (amended): in every run in which the preparing directory
creations do not raise, the emitted event sequence is either exactly
one fatal error event and nothing else (when listing the source
directory fails), or exactly one `start`, then only log and progress
events, then exactly one `done` and nothing after it. -/
theorem worker_C1_amended (s d : String) (env : Env)
    (hp : env.prepExc = none) :
    (∃ msg, eventsOf (workerRun s d env) = [MoveEvent.error msg]) ∨
    (∃ total mid moved,
      eventsOf (workerRun s d env) =
        MoveEvent.start total :: mid ++ [MoveEvent.done moved] ∧
      ∀ e ∈ mid, e.isLogOrProgress = true) := by
  cases hl : env.listing with
  | error e =>
    left
    exact ⟨listErrMsg e, by simp [workerRun, hl]⟩
  | ok files =>
    right
    refine ⟨files.length, eventsOf (runFiles s d env files 1 0).1,
      (runFiles s d env files 1 0).2, ?_, ?_⟩
    · simp [workerRun, hl, hp, eventsOf_append, eventsOf_prep]
    · exact runFiles_events s d env files 1 0

/-- Concrete environment in which everything succeeds for a single
file. -/
def envAllOk : Env :=
  ⟨Except.ok ["a.txt"], none, fun _ => defFileEnv, fun _ => false⟩

/-- Closed instance of the amended C1 at a concrete environment. -/
theorem worker_C1_witness :
    (envAllOk.prepExc = none) ∧
    ((∃ msg, eventsOf (workerRun "S" "D" envAllOk) =
        [MoveEvent.error msg]) ∨
     (∃ total mid moved,
        eventsOf (workerRun "S" "D" envAllOk) =
          MoveEvent.start total :: mid ++ [MoveEvent.done moved] ∧
        ∀ e ∈ mid, e.isLogOrProgress = true)) :=
  ⟨rfl, worker_C1_amended "S" "D" envAllOk rfl⟩

/-- C4: in every run the progress indices form the contiguous sequence
1, 2, ..., n for some n; whenever `start(total)` is emitted, n is at
most `total` and every emitted index lies between 1 and `total`; and
whenever `done(moved)` is emitted, `moved` is at most the number of
progress events. -/
theorem worker_C4 (s d : String) (env : Env) :
    ∃ n, progressOf (workerRun s d env) = List.range' 1 n ∧
      (∀ t, MoveEvent.start t ∈ eventsOf (workerRun s d env) →
        n ≤ t ∧ ∀ i ∈ progressOf (workerRun s d env), 1 ≤ i ∧ i ≤ t) ∧
      (∀ m, MoveEvent.done m ∈ eventsOf (workerRun s d env) → m ≤ n) := by
  cases hl : env.listing with
  | error e =>
    refine ⟨0, by simp [workerRun, hl, List.range'], ?_, ?_⟩
    · intro t ht
      simp [workerRun, hl] at ht
    · intro m hm
      simp [workerRun, hl] at hm
  | ok files =>
    cases hp : env.prepExc with
    | some k =>
      have htr : workerRun s d env =
          TraceItem.ev (MoveEvent.start files.length) ::
            ((prepPaths d).take k).map
              (fun p => TraceItem.act (FsAction.makedirs p)) := by
        simp only [workerRun, hl, hp]
      refine ⟨0, ?_, ?_, ?_⟩
      · rw [htr]
        simp only [progressOf_cons_start, progressOf_acts]
        rfl
      · intro t ht
        rw [htr] at ht
        simp only [eventsOf_cons_ev, eventsOf_acts] at ht
        rcases List.mem_cons.mp ht with ht | ht
        · injection ht with ht
          subst ht
          refine ⟨Nat.zero_le _, ?_⟩
          intro i hi
          rw [htr] at hi
          simp only [progressOf_cons_start, progressOf_acts] at hi
          simp at hi
        · simp at ht
      · intro m hm
        rw [htr] at hm
        simp only [eventsOf_cons_ev, eventsOf_acts] at hm
        rcases List.mem_cons.mp hm with hm | hm
        · exact MoveEvent.noConfusion hm
        · simp at hm
    | none =>
      have hle : iterCount env files 1 ≤ files.length := iterCount_le env files 1
      have htk : (files.take (iterCount env files 1)).length =
          iterCount env files 1 := by
        simp [List.length_take]
        omega
      have hprog : progressOf (workerRun s d env) =
          List.range' 1 (iterCount env files 1) := by
        simp only [workerRun, hl, hp]
        rw [runFiles_eq]
        simp only [progressOf_cons_start, progressOf_append, progressOf_prep,
          flatJoin_progress, htk]
        have hcif : progressOf
            (if iterCount env files 1 < files.length then
              [TraceItem.ev (MoveEvent.log cancelMsg)] else []) = [] := by
          split <;> simp
        simp [hcif]
      have hev : eventsOf (workerRun s d env) =
          MoveEvent.start files.length ::
            eventsOf (runFiles s d env files 1 0).1 ++
            [MoveEvent.done (runFiles s d env files 1 0).2] := by
        simp [workerRun, hl, hp, eventsOf_append, eventsOf_prep]
      have hdone : (runFiles s d env files 1 0).2 ≤ iterCount env files 1 := by
        rw [runFiles_eq]
        have := movedSum_le env (files.take (iterCount env files 1)) 1
        simp only [Nat.zero_add]
        omega
      refine ⟨iterCount env files 1, hprog, ?_, ?_⟩
      · intro t ht
        rw [hev] at ht
        rcases List.mem_cons.mp ht with ht | ht
        · injection ht with ht
          subst ht
          refine ⟨hle, ?_⟩
          intro i hi
          rw [hprog] at hi
          have := List.mem_range'_1.mp hi
          omega
        · rcases List.mem_append.mp ht with ht | ht
          · have := runFiles_events s d env files 1 0 _ ht
            simp [MoveEvent.isLogOrProgress] at this
          · simp at ht
      · intro m hm
        rw [hev] at hm
        rcases List.mem_cons.mp hm with hm | hm
        · exact MoveEvent.noConfusion hm
        · rcases List.mem_append.mp hm with hm | hm
          · have := runFiles_events s d env files 1 0 _ hm
            simp [MoveEvent.isLogOrProgress] at this
          · simp at hm
            subst hm
            exact hdone

/-- Closed instance of C4 at a concrete environment. -/
theorem worker_C4_witness :
    ∃ n, progressOf (workerRun "S" "D" envAllOk) = List.range' 1 n ∧
      (∀ t, MoveEvent.start t ∈ eventsOf (workerRun "S" "D" envAllOk) →
        n ≤ t ∧
        ∀ i ∈ progressOf (workerRun "S" "D" envAllOk), 1 ≤ i ∧ i ≤ t) ∧
      (∀ m, MoveEvent.done m ∈ eventsOf (workerRun "S" "D" envAllOk) →
        m ≤ n) :=
  worker_C4 "S" "D" envAllOk

/-- C2: in an uncancelled run whose listing and preparation succeed,
the loop reaches every file in the listing — one progress tick per file
regardless of per-file failures — the run still ends in `done` with the
count of successful moves, and any file whose processing raises is
reported via the corresponding error log line and not counted as a
move. -/
theorem worker_C2 (s d : String) (env : Env) (files : List String)
    (hl : env.listing = Except.ok files) (hp : env.prepExc = none)
    (hns : ∀ j, j < files.length → env.stopped (1 + j) = false) :
    workerRun s d env =
      TraceItem.ev (MoveEvent.start files.length) :: prepTraceItems d ++
        flatJoin s d env files 1 ++
        [TraceItem.ev (MoveEvent.done (movedSum env files 1))] ∧
    progressOf (workerRun s d env) = List.range' 1 files.length ∧
    (∀ j (hj : j < files.length) (e : String),
      failureOf (env.perFile (1 + j)) = some e →
      TraceItem.ev (MoveEvent.log (errMsg (files.get ⟨j, hj⟩) e)) ∈
        workerRun s d env ∧
      moveHappens (env.perFile (1 + j)) = false) := by
  have hic : iterCount env files 1 = files.length := iterCount_all env files 1 hns
  have htr : workerRun s d env =
      TraceItem.ev (MoveEvent.start files.length) :: prepTraceItems d ++
        flatJoin s d env files 1 ++
        [TraceItem.ev (MoveEvent.done (movedSum env files 1))] := by
    simp only [workerRun, hl, hp]
    rw [runFiles_eq, hic]
    simp [List.take_length, List.append_assoc]
  refine ⟨htr, ?_, ?_⟩
  · rw [htr]
    simp only [progressOf_cons_start, progressOf_append, progressOf_prep,
      flatJoin_progress]
    simp
  · intro j hj e hfail
    refine ⟨?_, failureOf_not_moved _ e hfail⟩
    rw [htr]
    have hmem := processFile_errlog s d (env.perFile (1 + j))
      (files.get ⟨j, hj⟩) e hfail
    have hit : TraceItem.ev (MoveEvent.log (errMsg (files.get ⟨j, hj⟩) e)) ∈
        iterTraceItems s d env (files.get ⟨j, hj⟩) (1 + j) :=
      List.mem_append_left _ hmem
    have hflat := mem_flatJoin s d env files 1 j hj _ hit
    simp only [List.mem_cons, List.mem_append]
    tauto

/-- Concrete environment with one file whose `isfile` check raises. -/
def envOneFail : Env :=
  ⟨Except.ok ["x.pdf"], none,
    fun _ => ⟨Except.error "denied", none, [], none, "T"⟩, fun _ => false⟩

/-- Closed instance of C2: the single file's failure is logged, the
batch still produces its progress tick and a `done` event. -/
theorem worker_C2_witness :
    (envOneFail.listing = Except.ok ["x.pdf"]) ∧
    (envOneFail.prepExc = none) ∧
    (workerRun "S" "D" envOneFail =
      TraceItem.ev (MoveEvent.start (["x.pdf"] : List String).length) ::
        prepTraceItems "D" ++ flatJoin "S" "D" envOneFail ["x.pdf"] 1 ++
        [TraceItem.ev (MoveEvent.done (movedSum envOneFail ["x.pdf"] 1))] ∧
     progressOf (workerRun "S" "D" envOneFail) =
       List.range' 1 (["x.pdf"] : List String).length ∧
     (∀ j (hj : j < (["x.pdf"] : List String).length) (e : String),
       failureOf (envOneFail.perFile (1 + j)) = some e →
       TraceItem.ev (MoveEvent.log
         (errMsg ((["x.pdf"] : List String).get ⟨j, hj⟩) e)) ∈
         workerRun "S" "D" envOneFail ∧
       moveHappens (envOneFail.perFile (1 + j)) = false)) :=
  ⟨rfl, rfl, worker_C2 "S" "D" envOneFail ["x.pdf"] rfl rfl (fun _ _ => rfl)⟩

/-- C3: when the cancellation flag is first observed set before file
j + 1 (0-based offset j), the worker emits the trace of the first j
files only, then one cancellation log line, then `done` carrying the
number of files successfully moved before cancellation; the progress
indices stop at j. -/
theorem worker_C3 (s d : String) (env : Env) (files : List String) (j : Nat)
    (hl : env.listing = Except.ok files) (hp : env.prepExc = none)
    (hj : j < files.length) (hstop : env.stopped (1 + j) = true)
    (hbefore : ∀ i, i < j → env.stopped (1 + i) = false) :
    workerRun s d env =
      TraceItem.ev (MoveEvent.start files.length) :: prepTraceItems d ++
        flatJoin s d env (files.take j) 1 ++
        [TraceItem.ev (MoveEvent.log cancelMsg),
         TraceItem.ev (MoveEvent.done (movedSum env (files.take j) 1))] ∧
    progressOf (workerRun s d env) = List.range' 1 j ∧
    movedSum env (files.take j) 1 ≤ j := by
  have hic : iterCount env files 1 = j := iterCount_stop env files 1 j hj hstop hbefore
  have htk : (files.take j).length = j := by
    simp [List.length_take]
    omega
  have htr : workerRun s d env =
      TraceItem.ev (MoveEvent.start files.length) :: prepTraceItems d ++
        flatJoin s d env (files.take j) 1 ++
        [TraceItem.ev (MoveEvent.log cancelMsg),
         TraceItem.ev (MoveEvent.done (movedSum env (files.take j) 1))] := by
    simp only [workerRun, hl, hp]
    rw [runFiles_eq, hic, if_pos hj]
    simp [List.append_assoc]
  refine ⟨htr, ?_, ?_⟩
  · rw [htr]
    simp only [progressOf_cons_start, progressOf_append, progressOf_prep,
      flatJoin_progress, htk]
    simp
  · have h1 := movedSum_le env (files.take j) 1
    omega

/-- Concrete environment with two files in which the cancellation flag
becomes observable before the second file. -/
def envCancel : Env :=
  ⟨Except.ok ["a.txt", "b.txt"], none, fun _ => defFileEnv,
    fun i => decide (2 ≤ i)⟩

/-- Closed instance of C3: cancellation before file 2 of 2 yields the
first file's trace, a cancellation log, and `done` with the moves of
the first file only. -/
theorem worker_C3_witness :
    (envCancel.listing = Except.ok ["a.txt", "b.txt"]) ∧
    (envCancel.prepExc = none) ∧
    (envCancel.stopped 2 = true) ∧
    (workerRun "S" "D" envCancel =
      TraceItem.ev
          (MoveEvent.start (["a.txt", "b.txt"] : List String).length) ::
        prepTraceItems "D" ++
        flatJoin "S" "D" envCancel (["a.txt", "b.txt"].take 1) 1 ++
        [TraceItem.ev (MoveEvent.log cancelMsg),
         TraceItem.ev (MoveEvent.done
           (movedSum envCancel (["a.txt", "b.txt"].take 1) 1))] ∧
     progressOf (workerRun "S" "D" envCancel) = List.range' 1 1 ∧
     movedSum envCancel (["a.txt", "b.txt"].take 1) 1 ≤ 1) :=
  ⟨rfl, rfl, rfl,
    worker_C3 "S" "D" envCancel ["a.txt", "b.txt"] 1 rfl rfl (by decide) rfl
      (fun i hi => by
        have h0 : i = 0 := by omega
        subst h0
        rfl)⟩
